import Mathlib

/-!
Verification of `src/inventory_system.py` (class `InventoryManager`).

The inventory `stock_data` is a Python `dict` from item identifier (string)
to integer quantity.  Python dicts iterate in insertion order, assignment to
an existing key keeps its position, and deletion removes the single entry
with that key; we embed the dict as an association list in insertion order.
Any state a Python dict can reach has pairwise distinct keys, so theorems
that depend on key uniqueness take a `NodupKeys` hypothesis.

Fallible operations (a Python `KeyError`, an I/O error, a JSON parse error)
are embedded with `Option` / an explicit success flag.
-/

/-- The `stock_data` mapping: an association list in insertion order. -/
abbrev Dict := List (String × Int)

/-- `d[k]` as a total function: `some` of the value of the first entry whose
key is `k`, `none` when no entry has key `k` (a `KeyError` in Python). -/
def dictGet (d : Dict) (k : String) : Option Int :=
  match d with
  | [] => none
  | (k', v) :: rest => if k' = k then some v else dictGet rest k

/-- `d.get(k, dflt)`. -/
def dictGetD (d : Dict) (k : String) (dflt : Int) : Int :=
  (dictGet d k).getD dflt

/-- `d[k] = v`: replaces the value of the existing entry for `k` in place
(keeping its position, as a Python dict does), or appends a new entry. -/
def dictSet (d : Dict) (k : String) (v : Int) : Dict :=
  match d with
  | [] => [(k, v)]
  | (k', v') :: rest => if k' = k then (k, v) :: rest else (k', v') :: dictSet rest k v

/-- `del d[k]`: removes the first entry whose key is `k` (the only one, in
any state a Python dict can reach). -/
def dictDel (d : Dict) (k : String) : Dict :=
  match d with
  | [] => []
  | (k', v') :: rest => if k' = k then rest else (k', v') :: dictDel rest k

/-- The keys of the mapping, in iteration order. -/
def dictKeys (d : Dict) : List String := d.map Prod.fst

/-- The invariant every reachable Python dict satisfies: keys are pairwise
distinct. -/
def NodupKeys (d : Dict) : Prop := (dictKeys d).Nodup

instance (d : Dict) : Decidable (NodupKeys d) := by
  unfold NodupKeys; infer_instance

/-- The log message appended by `add_item`.  The Python message is prefixed
with `datetime.now()`; wall-clock time is outside the embedding, so only the
fixed part of the message is kept.  No claim inspects the message text. -/
def logMsg (item : String) (qty : Int) : String :=
  "Added " ++ toString qty ++ " of " ++ item

/-- `add_item(item, qty, logs)`: returns the new `stock_data` and the new
contents of the caller-supplied `logs` list.  `if not item: return` — for a
string argument, falsy means the empty string.  Otherwise
`stock_data[item] = stock_data.get(item, 0) + qty` and a message is appended
to `logs`.  (With `logs=None` Python appends to a fresh local list the
caller never sees; that case is the first component alone.) -/
def add_item (d : Dict) (item : String) (qty : Int) (logs : List String) :
    Dict × List String :=
  if item = "" then (d, logs)
  else (dictSet d item (dictGetD d item 0 + qty), logs ++ [logMsg item qty])

/-- `remove_item(item, qty)`: `stock_data[item] -= qty`, then the entry is
deleted when the new value is `≤ 0`; a `KeyError` (absent item) is swallowed,
leaving the state unchanged. -/
def remove_item (d : Dict) (item : String) (qty : Int) : Dict :=
  match dictGet d item with
  | none => d
  | some v =>
    let d' := dictSet d item (v - qty)
    if v - qty ≤ 0 then dictDel d' item else d'

/-- `get_qty(item)`: `return self.stock_data[item]` — `some` of the stored
quantity, `none` for the uncaught `KeyError` on an absent item. -/
def get_qty (d : Dict) (item : String) : Option Int :=
  dictGet d item

/-- `check_low_items(threshold=5)`: the list comprehension
`[item for item, qty in self.stock_data.items() if qty < threshold]`,
in mapping iteration order. -/
def check_low_items (d : Dict) (threshold : Int) : List String :=
  match d with
  | [] => []
  | (item, qty) :: rest =>
    if qty < threshold then item :: check_low_items rest threshold
    else check_low_items rest threshold

/-!
### JSON serialization

Modelled from the spec: `save_data`/`load_data` call the Python standard
library (`open`, `json.dumps`, `json.loads`), which is not part of this
repository's source.  Per the spec, the persisted file format is "a single
JSON object at the given path, keys are item identifiers (strings), values
are integers (quantities)".  We model file contents as the exact character
sequence `json.dumps` produces (CPython defaults: separators `", "` and
`": "`, `ensure_ascii=True`) and `json.loads` as a parser of such objects.
-/

/-- Lowercase hexadecimal digit, as in CPython's `\uXXXX` escapes. -/
def hexDigitChar (n : Nat) : Char :=
  if n < 10 then Char.ofNat (48 + n) else Char.ofNat (87 + n)

/-- The four hex digits of a code unit `n < 0x10000`, most significant
first. -/
def hexQuad (n : Nat) : List Char :=
  [hexDigitChar (n / 4096 % 16), hexDigitChar (n / 256 % 16),
   hexDigitChar (n / 16 % 16), hexDigitChar (n % 16)]

/-- A `\uXXXX` escape for a code unit `n < 0x10000`. -/
def uEsc (n : Nat) : List Char :=
  '\\' :: 'u' :: hexQuad n

/-- CPython's `ensure_ascii` escaping of one character: the two-character
escapes of `ESCAPE_DCT`, printable ASCII (`0x20`–`0x7E` except `"` and `\`)
verbatim, and `\uXXXX` otherwise — with a UTF-16 surrogate pair for code
points above `0xFFFF`. -/
def escChar (c : Char) : List Char :=
  if c = '"' then ['\\', '"']
  else if c = '\\' then ['\\', '\\']
  else if c = '\n' then ['\\', 'n']
  else if c = '\r' then ['\\', 'r']
  else if c = '\t' then ['\\', 't']
  else if c.toNat = 8 then ['\\', 'b']
  else if c.toNat = 12 then ['\\', 'f']
  else if 32 ≤ c.toNat ∧ c.toNat ≤ 126 then [c]
  else if c.toNat < 65536 then uEsc c.toNat
  else uEsc (55296 + (c.toNat - 65536) / 1024) ++
       uEsc (56320 + (c.toNat - 65536) % 1024)

def escapeChars : List Char → List Char
  | [] => []
  | c :: cs => escChar c ++ escapeChars cs

/-- A JSON string literal: `"` + escaped characters + `"`. -/
def quoteChars (s : String) : List Char :=
  '"' :: escapeChars s.data ++ ['"']

def digitChar10 (d : Nat) : Char := Char.ofNat (48 + d)

/-- Decimal digits of `n`, most significant first. -/
def natChars (n : Nat) : List Char :=
  if n = 0 then ['0'] else ((Nat.digits 10 n).reverse).map digitChar10

/-- `json.dumps` of an `int`: optional minus sign and decimal digits. -/
def intChars (i : Int) : List Char :=
  if i < 0 then '-' :: natChars i.natAbs else natChars i.natAbs

def pairChars (k : String) (v : Int) : List Char :=
  quoteChars k ++ ':' :: ' ' :: intChars v

def membersChars : Dict → List Char
  | [] => []
  | [(k, v)] => pairChars k v
  | (k, v) :: p :: rest => pairChars k v ++ ',' :: ' ' :: membersChars (p :: rest)

/-- Modelled from the spec: `json.dumps(self.stock_data)` with CPython's
default separators. -/
def json_dumps (d : Dict) : String :=
  String.mk ('{' :: membersChars d ++ ['}'])

/-- JSON insignificant whitespace: space, tab, newline, carriage return. -/
def isJsonWs (c : Char) : Bool :=
  c.toNat = 32 || c.toNat = 9 || c.toNat = 10 || c.toNat = 13

def skipWs (cs : List Char) : List Char := cs.dropWhile isJsonWs

/-- Value of a hexadecimal digit character. -/
def hexVal (c : Char) : Option Nat :=
  if 48 ≤ c.toNat ∧ c.toNat ≤ 57 then some (c.toNat - 48)
  else if 97 ≤ c.toNat ∧ c.toNat ≤ 102 then some (c.toNat - 87)
  else if 65 ≤ c.toNat ∧ c.toNat ≤ 70 then some (c.toNat - 55)
  else none

/-- Reassemble a code point from a UTF-16 surrogate pair. -/
def combineSurrogates (h l : Nat) : Nat :=
  65536 + (h - 55296) * 1024 + (l - 56320)

/-- State of the string-body scanner: scanning plain characters, after a
backslash, inside the four hex digits of a `\uXXXX` (with the pending high
surrogate when this is the second escape of a pair and the digits read so
far), after a complete high surrogate expecting `\`, or expecting the `u`
of the low-surrogate escape. -/
inductive SState where
  | norm : SState
  | esc : SState
  | hex : Option Nat → Nat → Nat → SState
  | pairSlash : Nat → SState
  | pairU : Nat → SState

/-- Scan the body of a JSON string literal up to its closing quote,
returning the decoded characters and the remaining input.  A lone
surrogate escape is rejected (a Lean `Char` cannot hold one; `json.dumps`
never produces one). -/
def parseStrChars : SState → List Char → Option (List Char × List Char)
  | _, [] => none
  | .norm, c :: rest =>
    if c = '"' then some ([], rest)
    else if c = '\\' then parseStrChars .esc rest
    else (parseStrChars .norm rest).map fun p => (c :: p.1, p.2)
  | .esc, c :: rest =>
    if c = '"' then (parseStrChars .norm rest).map fun p => ('"' :: p.1, p.2)
    else if c = '\\' then (parseStrChars .norm rest).map fun p => ('\\' :: p.1, p.2)
    else if c = '/' then (parseStrChars .norm rest).map fun p => ('/' :: p.1, p.2)
    else if c = 'b' then (parseStrChars .norm rest).map fun p => (Char.ofNat 8 :: p.1, p.2)
    else if c = 'f' then (parseStrChars .norm rest).map fun p => (Char.ofNat 12 :: p.1, p.2)
    else if c = 'n' then (parseStrChars .norm rest).map fun p => ('\n' :: p.1, p.2)
    else if c = 'r' then (parseStrChars .norm rest).map fun p => ('\r' :: p.1, p.2)
    else if c = 't' then (parseStrChars .norm rest).map fun p => ('\t' :: p.1, p.2)
    else if c = 'u' then parseStrChars (.hex none 0 0) rest
    else none
  | .hex hpend acc k, c :: rest =>
    match hexVal c with
    | none => none
    | some dg =>
      if k < 3 then parseStrChars (.hex hpend (acc * 16 + dg) (k + 1)) rest
      else
        match hpend with
        | none =>
          if 55296 ≤ acc * 16 + dg ∧ acc * 16 + dg ≤ 56319 then
            parseStrChars (.pairSlash (acc * 16 + dg)) rest
          else if 56320 ≤ acc * 16 + dg ∧ acc * 16 + dg ≤ 57343 then none
          else (parseStrChars .norm rest).map
            fun p => (Char.ofNat (acc * 16 + dg) :: p.1, p.2)
        | some hs =>
          if 56320 ≤ acc * 16 + dg ∧ acc * 16 + dg ≤ 57343 then
            (parseStrChars .norm rest).map
              fun p => (Char.ofNat (combineSurrogates hs (acc * 16 + dg)) :: p.1, p.2)
          else none
  | .pairSlash hs, c :: rest =>
    if c = '\\' then parseStrChars (.pairU hs) rest else none
  | .pairU hs, c :: rest =>
    if c = 'u' then parseStrChars (.hex (some hs) 0 0) rest else none

/-- Parse a JSON string literal. -/
def parseJString (cs : List Char) : Option (String × List Char) :=
  match cs with
  | '"' :: rest => (parseStrChars .norm rest).map fun p => (String.mk p.1, p.2)
  | _ => none

def isDigit10 (c : Char) : Bool := 48 ≤ c.toNat && c.toNat ≤ 57

/-- Value of a run of decimal digit characters, most significant first. -/
def digitsVal (ds : List Char) : Nat :=
  ds.foldl (fun a c => a * 10 + (c.toNat - 48)) 0

/-- Parse a nonempty run of decimal digits. -/
def parseNum (cs : List Char) : Option (Nat × List Char) :=
  let ds := cs.takeWhile isDigit10
  if ds.isEmpty then none else some (digitsVal ds, cs.dropWhile isDigit10)

/-- Parse a JSON integer: optional minus sign and decimal digits. -/
def parseInt (cs : List Char) : Option (Int × List Char) :=
  match cs with
  | [] => none
  | c :: rest =>
    if c = '-' then (parseNum rest).map fun p => (-(p.1 : Int), p.2)
    else (parseNum (c :: rest)).map fun p => ((p.1 : Int), p.2)

/-- Parse one `"key": value` member. -/
def parsePair (cs : List Char) : Option ((String × Int) × List Char) :=
  match parseJString (skipWs cs) with
  | none => none
  | some (k, cs1) =>
    match skipWs cs1 with
    | ':' :: cs2 =>
      match parseInt (skipWs cs2) with
      | none => none
      | some (v, cs3) => some ((k, v), cs3)
    | _ => none

/-- Parse the nonempty member list of an object, consuming the closing
brace.  Each step consumes at least one character, so fuel equal to the
input length always suffices. -/
def parseMembers (fuel : Nat) (cs : List Char) :
    Option (List (String × Int) × List Char) :=
  match fuel with
  | 0 => none
  | fuel + 1 =>
    match parsePair cs with
    | none => none
    | some (p, cs1) =>
      match skipWs cs1 with
      | ',' :: cs2 => (parseMembers fuel cs2).map fun q => (p :: q.1, q.2)
      | '}' :: cs2 => some ([p], cs2)
      | _ => none

/-- Python builds the object dict by inserting the parsed members in order
(later duplicates overwrite earlier ones). -/
def pyDictOfPairs (ps : List (String × Int)) : Dict :=
  ps.foldl (fun d p => dictSet d p.1 p.2) []

/-- Modelled from the spec: `json.loads` restricted to the persisted file
format — a single JSON object whose values are integers.  `none` is a
`json.JSONDecodeError`. -/
def json_loads (s : String) : Option Dict :=
  match skipWs s.data with
  | '{' :: cs =>
    match skipWs cs with
    | '}' :: cs2 => if (skipWs cs2).isEmpty then some [] else none
    | _ =>
      match parseMembers (cs.length + 1) cs with
      | none => none
      | some (ps, rest) =>
        if (skipWs rest).isEmpty then some (pyDictOfPairs ps) else none
  | _ => none

/-!
### Persistence

The file system is a map from path to file contents; `none` means the path
is unreadable (`open` raises `OSError`).
-/

abbrev FS := String → Option String

/-- Modelled from the spec: `save_data(file)` writes `json.dumps` of the
mapping to the path (default `"inventory.json"`). -/
def save_data (fs : FS) (d : Dict) (path : String) : FS :=
  fun p => if p = path then some (json_dumps d) else fs p

/-- Modelled from the spec: `load_data(file)` reads the path and replaces
`stock_data` wholesale with the parsed object.  The result pairs the new
`stock_data` with a success flag: on an unreadable path or a parse error
the exception propagates before the assignment, so the mapping is the old
one and the flag is `false`. -/
def load_data (fs : FS) (m : Dict) (path : String) : Dict × Bool :=
  match fs path with
  | none => (m, false)
  | some s =>
    match json_loads s with
    | none => (m, false)
    | some obj => (obj, true)

/-- A concrete file system with one well-formed and one malformed file,
used to exhibit the three behaviors of `load_data`. -/
def c9_fs : FS := fun p =>
  if p = "good" then some "\x7b\"a\": 1\x7d"
  else if p = "bad" then some "not a json object" else none

/-- The state reached by the spec's concrete scenario:
`add("apple",10); add("banana",-2); remove("apple",3); remove("orange",1)`
starting from an empty inventory (no logs supplied). -/
def c1_state : Dict :=
  remove_item (remove_item
    (add_item (add_item [] "apple" 10 []).1 "banana" (-2) []).1
    "apple" 3) "orange" 1

/-!
### Lemmas about the mapping operations
-/

theorem dictGet_eq_none_iff (d : Dict) (k : String) :
    dictGet d k = none ↔ k ∉ dictKeys d := by
  induction d with
  | nil => simp [dictGet, dictKeys]
  | cons p rest ih =>
    obtain ⟨k', v⟩ := p
    by_cases h : k' = k <;>
      simp [dictGet, dictKeys, h, ih, eq_comm (a := k)]

theorem dictGet_dictSet_self (d : Dict) (k : String) (v : Int) :
    dictGet (dictSet d k v) k = some v := by
  induction d with
  | nil => simp [dictSet, dictGet]
  | cons p rest ih =>
    obtain ⟨k', v'⟩ := p
    by_cases h : k' = k <;> simp [dictSet, dictGet, h, ih]

theorem mem_keys_dictSet (d : Dict) (k : String) (v : Int) (x : String)
    (h : x ∈ dictKeys (dictSet d k v)) : x = k ∨ x ∈ dictKeys d := by
  induction d with
  | nil => simp [dictSet, dictKeys] at h; exact .inl h
  | cons p rest ih =>
    obtain ⟨k', v'⟩ := p
    by_cases e : k' = k
    · simp only [dictSet, if_pos e, dictKeys, List.map_cons, List.mem_cons] at h ⊢
      tauto
    · simp only [dictSet, if_neg e, dictKeys, List.map_cons, List.mem_cons] at h ⊢
      rcases h with h | h
      · exact .inr (.inl h)
      · rcases ih h with h' | h'
        · exact .inl h'
        · exact .inr (.inr h')

theorem nodupKeys_dictSet (d : Dict) (k : String) (v : Int)
    (hnd : NodupKeys d) : NodupKeys (dictSet d k v) := by
  induction d with
  | nil => simp [NodupKeys, dictSet, dictKeys]
  | cons p rest ih =>
    obtain ⟨k', v'⟩ := p
    simp only [NodupKeys, dictKeys, List.map_cons, List.nodup_cons] at hnd
    by_cases e : k' = k
    · subst e
      simpa [NodupKeys, dictSet, dictKeys, List.nodup_cons] using hnd
    · have ih' := ih hnd.2
      simp only [NodupKeys, dictSet, dictKeys, if_neg e, List.map_cons,
        List.nodup_cons] at ih' ⊢
      refine ⟨fun hmem => ?_, ih'⟩
      rcases mem_keys_dictSet rest k v k' hmem with h' | h'
      · exact e h'
      · exact hnd.1 h'

theorem dictGet_dictDel_self (d : Dict) (k : String) (hnd : NodupKeys d) :
    dictGet (dictDel d k) k = none := by
  induction d with
  | nil => simp [dictDel, dictGet]
  | cons p rest ih =>
    obtain ⟨k', v'⟩ := p
    simp only [NodupKeys, dictKeys, List.map_cons, List.nodup_cons] at hnd
    by_cases e : k' = k
    · subst e
      simp only [dictDel, if_pos rfl]
      exact (dictGet_eq_none_iff rest k').mpr hnd.1
    · simp [dictDel, dictGet, e, ih hnd.2]

theorem dictGet_eq_some_of_mem (d : Dict) (k : String) (v : Int)
    (hnd : NodupKeys d) (hm : (k, v) ∈ d) : dictGet d k = some v := by
  induction d with
  | nil => cases hm
  | cons p rest ih =>
    obtain ⟨k', v'⟩ := p
    simp only [NodupKeys, dictKeys, List.map_cons, List.nodup_cons] at hnd
    rcases List.mem_cons.mp hm with h | h
    · injection h with h1 h2
      subst h1
      subst h2
      simp [dictGet]
    · have hne : k' ≠ k := by
        intro e
        subst e
        exact hnd.1 (List.mem_map_of_mem Prod.fst h)
      simp [dictGet, hne, ih hnd.2 h]

theorem mem_of_dictGet_eq_some (d : Dict) (k : String) (v : Int)
    (h : dictGet d k = some v) : (k, v) ∈ d := by
  induction d with
  | nil => simp [dictGet] at h
  | cons p rest ih =>
    obtain ⟨k', v'⟩ := p
    by_cases e : k' = k
    · subst e
      simp [dictGet] at h
      subst h
      exact .head _
    · simp only [dictGet, if_neg e] at h
      exact .tail _ (ih h)

theorem exists_mem_of_mem_keys (d : Dict) (x : String)
    (h : x ∈ dictKeys d) : ∃ v, (x, v) ∈ d := by
  obtain ⟨⟨a, b⟩, hm, he⟩ := List.mem_map.mp h
  exact ⟨b, he ▸ hm⟩

theorem mem_check_low_iff (d : Dict) (t : Int) (item : String) :
    item ∈ check_low_items d t ↔ ∃ v, (item, v) ∈ d ∧ v < t := by
  induction d with
  | nil => simp [check_low_items]
  | cons p rest ih =>
    obtain ⟨k, v⟩ := p
    by_cases h : v < t
    · simp only [check_low_items, if_pos h, List.mem_cons, ih]
      constructor
      · rintro (rfl | ⟨v', hv', ht'⟩)
        · exact ⟨v, .inl rfl, h⟩
        · exact ⟨v', .inr hv', ht'⟩
      · rintro ⟨v', hv' | hv', ht'⟩
        · injection hv' with h1 h2
          exact .inl h1
        · exact .inr ⟨v', hv', ht'⟩
    · simp only [check_low_items, if_neg h, ih, List.mem_cons]
      constructor
      · rintro ⟨v', hv', ht'⟩
        exact ⟨v', .inr hv', ht'⟩
      · rintro ⟨v', hv' | hv', ht'⟩
        · injection hv' with h1 h2
          subst h2
          exact absurd ht' h
        · exact ⟨v', hv', ht'⟩

theorem check_low_sublist_keys (d : Dict) (t : Int) :
    (check_low_items d t).Sublist (dictKeys d) := by
  induction d with
  | nil => simp [check_low_items, dictKeys]
  | cons p rest ih =>
    obtain ⟨k, v⟩ := p
    by_cases h : v < t
    · simpa [check_low_items, dictKeys, h] using ih.cons₂ k
    · simpa [check_low_items, dictKeys, h] using ih.cons k

/-!
### JSON round-trip lemmas
-/

theorem char_code_valid (c : Char) :
    c.toNat < 55296 ∨ (57343 < c.toNat ∧ c.toNat < 1114112) :=
  c.valid

theorem toNat_ofNat_valid {n : Nat} (h : n.isValidChar) :
    (Char.ofNat n).toNat = n := by
  rw [Char.ofNat, dif_pos h]
  rfl

theorem hexVal_hexDigitChar : ∀ d : Nat, d < 16 → hexVal (hexDigitChar d) = some d := by
  decide

theorem parseStr_hex_step (hp : Option Nat) (a k : Nat) (hk : k < 3) (d : Nat)
    (hd : d < 16) (rest : List Char) :
    parseStrChars (.hex hp a k) (hexDigitChar d :: rest)
      = parseStrChars (.hex hp (a * 16 + d) (k + 1)) rest := by
  simp only [parseStrChars, hexVal_hexDigitChar d hd, if_pos hk]

theorem parseStr_hex_last_plain (a d : Nat) (hd : d < 16)
    (hns : ¬ (55296 ≤ a * 16 + d ∧ a * 16 + d ≤ 56319))
    (hnl : ¬ (56320 ≤ a * 16 + d ∧ a * 16 + d ≤ 57343)) (rest : List Char) :
    parseStrChars (.hex none a 3) (hexDigitChar d :: rest)
      = (parseStrChars .norm rest).map fun p => (Char.ofNat (a * 16 + d) :: p.1, p.2) := by
  simp only [parseStrChars, hexVal_hexDigitChar d hd,
    if_neg (by omega : ¬ (3 : Nat) < 3), if_neg hns, if_neg hnl]

theorem parseStr_hex_last_high (a d : Nat) (hd : d < 16)
    (hh : 55296 ≤ a * 16 + d ∧ a * 16 + d ≤ 56319) (rest : List Char) :
    parseStrChars (.hex none a 3) (hexDigitChar d :: rest)
      = parseStrChars (.pairSlash (a * 16 + d)) rest := by
  simp only [parseStrChars, hexVal_hexDigitChar d hd,
    if_neg (by omega : ¬ (3 : Nat) < 3), if_pos hh]

theorem parseStr_hex_last_low (hs a d : Nat) (hd : d < 16)
    (hl : 56320 ≤ a * 16 + d ∧ a * 16 + d ≤ 57343) (rest : List Char) :
    parseStrChars (.hex (some hs) a 3) (hexDigitChar d :: rest)
      = (parseStrChars .norm rest).map
          fun p => (Char.ofNat (combineSurrogates hs (a * 16 + d)) :: p.1, p.2) := by
  simp only [parseStrChars, hexVal_hexDigitChar d hd,
    if_neg (by omega : ¬ (3 : Nat) < 3), if_pos hl]

theorem parseStr_hexQuad_plain (n : Nat) (hn : n < 65536)
    (hns : ¬ (55296 ≤ n ∧ n ≤ 57343)) (rest : List Char) :
    parseStrChars (.hex none 0 0) (hexQuad n ++ rest)
      = (parseStrChars .norm rest).map fun p => (Char.ofNat n :: p.1, p.2) := by
  simp only [hexQuad, List.cons_append, List.nil_append]
  rw [parseStr_hex_step _ _ _ (by omega) _ (Nat.mod_lt _ (by omega)),
      parseStr_hex_step _ _ _ (by omega) _ (Nat.mod_lt _ (by omega)),
      parseStr_hex_step _ _ _ (by omega) _ (Nat.mod_lt _ (by omega)),
      parseStr_hex_last_plain _ _ (Nat.mod_lt _ (by omega)) (by omega) (by omega)]
  have : (((0 * 16 + n / 4096 % 16) * 16 + n / 256 % 16) * 16 + n / 16 % 16) * 16 + n % 16
      = n := by omega
  rw [this]

theorem parseStr_hexQuad_high (h : Nat) (hh : 55296 ≤ h ∧ h ≤ 56319)
    (rest : List Char) :
    parseStrChars (.hex none 0 0) (hexQuad h ++ rest)
      = parseStrChars (.pairSlash h) rest := by
  simp only [hexQuad, List.cons_append, List.nil_append]
  rw [parseStr_hex_step _ _ _ (by omega) _ (Nat.mod_lt _ (by omega)),
      parseStr_hex_step _ _ _ (by omega) _ (Nat.mod_lt _ (by omega)),
      parseStr_hex_step _ _ _ (by omega) _ (Nat.mod_lt _ (by omega)),
      parseStr_hex_last_high _ _ (Nat.mod_lt _ (by omega)) (by omega)]
  have : (((0 * 16 + h / 4096 % 16) * 16 + h / 256 % 16) * 16 + h / 16 % 16) * 16 + h % 16
      = h := by omega
  rw [this]

theorem parseStr_hexQuad_low (hs l : Nat) (hl : 56320 ≤ l ∧ l ≤ 57343)
    (rest : List Char) :
    parseStrChars (.hex (some hs) 0 0) (hexQuad l ++ rest)
      = (parseStrChars .norm rest).map
          fun p => (Char.ofNat (combineSurrogates hs l) :: p.1, p.2) := by
  simp only [hexQuad, List.cons_append, List.nil_append]
  rw [parseStr_hex_step _ _ _ (by omega) _ (Nat.mod_lt _ (by omega)),
      parseStr_hex_step _ _ _ (by omega) _ (Nat.mod_lt _ (by omega)),
      parseStr_hex_step _ _ _ (by omega) _ (Nat.mod_lt _ (by omega)),
      parseStr_hex_last_low _ _ _ (Nat.mod_lt _ (by omega)) (by omega)]
  have : (((0 * 16 + l / 4096 % 16) * 16 + l / 256 % 16) * 16 + l / 16 % 16) * 16 + l % 16
      = l := by omega
  rw [this]

theorem parseStr_escChar (c : Char) (rest : List Char) :
    parseStrChars .norm (escChar c ++ rest)
      = (parseStrChars .norm rest).map fun p => (c :: p.1, p.2) := by
  by_cases h1 : c = '"'
  · subst h1; rfl
  by_cases h2 : c = '\\'
  · subst h2; rfl
  by_cases h3 : c = '\n'
  · subst h3; rfl
  by_cases h4 : c = '\r'
  · subst h4; rfl
  by_cases h5 : c = '\t'
  · subst h5; rfl
  by_cases h6 : c.toNat = 8
  · have hc : c = Char.ofNat 8 := by rw [← h6]; exact (Char.ofNat_toNat c).symm
    rw [hc]
    rfl
  by_cases h7 : c.toNat = 12
  · have hc : c = Char.ofNat 12 := by rw [← h7]; exact (Char.ofNat_toNat c).symm
    rw [hc]
    rfl
  by_cases h8 : 32 ≤ c.toNat ∧ c.toNat ≤ 126
  · have he : escChar c = [c] := by
      unfold escChar
      rw [if_neg h1, if_neg h2, if_neg h3, if_neg h4, if_neg h5, if_neg h6,
          if_neg h7, if_pos h8]
    rw [he]
    simp only [List.cons_append, List.nil_append]
    simp only [parseStrChars, if_neg h1, if_neg h2]
  have stepU : ∀ l, parseStrChars .norm ('\\' :: 'u' :: l)
      = parseStrChars (.hex none 0 0) l := fun _ => rfl
  by_cases h9 : c.toNat < 65536
  · have he : escChar c = uEsc c.toNat := by
      unfold escChar
      rw [if_neg h1, if_neg h2, if_neg h3, if_neg h4, if_neg h5, if_neg h6,
          if_neg h7, if_neg h8, if_pos h9]
    rw [he]
    simp only [uEsc, List.cons_append]
    rw [stepU]
    rw [parseStr_hexQuad_plain c.toNat h9
        (by rcases char_code_valid c with h | h <;> omega) rest]
    rw [Char.ofNat_toNat]
  · have he : escChar c = uEsc (55296 + (c.toNat - 65536) / 1024) ++
        uEsc (56320 + (c.toNat - 65536) % 1024) := by
      unfold escChar
      rw [if_neg h1, if_neg h2, if_neg h3, if_neg h4, if_neg h5, if_neg h6,
          if_neg h7, if_neg h8, if_neg h9]
    have hrange : 65536 ≤ c.toNat ∧ c.toNat < 1114112 := by
      rcases char_code_valid c with h | h <;> omega
    have stepP : ∀ hs l, parseStrChars (.pairSlash hs) ('\\' :: 'u' :: l)
        = parseStrChars (.hex (some hs) 0 0) l := fun _ _ => rfl
    rw [he]
    simp only [uEsc, List.cons_append, List.append_assoc]
    rw [stepU]
    rw [parseStr_hexQuad_high (55296 + (c.toNat - 65536) / 1024)
        ⟨by omega, by omega⟩]
    rw [stepP]
    rw [parseStr_hexQuad_low (55296 + (c.toNat - 65536) / 1024)
        (56320 + (c.toNat - 65536) % 1024) ⟨by omega, by omega⟩]
    have hcomb : combineSurrogates (55296 + (c.toNat - 65536) / 1024)
        (56320 + (c.toNat - 65536) % 1024) = c.toNat := by
      unfold combineSurrogates
      omega
    rw [hcomb, Char.ofNat_toNat]

/-- Scanning the serialized body of a string plus the closing quote
recovers exactly the original characters. -/
theorem parseStr_escapeChars (s rest : List Char) :
    parseStrChars .norm (escapeChars s ++ '"' :: rest) = some (s, rest) := by
  induction s with
  | nil => rfl
  | cons c cs ih =>
    simp only [escapeChars, List.append_assoc]
    rw [parseStr_escChar, ih]
    rfl

theorem parseJString_quoteChars (s : String) (rest : List Char) :
    parseJString (quoteChars s ++ rest) = some (s, rest) := by
  have : quoteChars s ++ rest = '"' :: (escapeChars s.data ++ '"' :: rest) := by
    simp [quoteChars]
  rw [this]
  show (parseStrChars .norm (escapeChars s.data ++ '"' :: rest)).map
      (fun p => (String.mk p.1, p.2)) = some (s, rest)
  rw [parseStr_escapeChars]
  rfl

theorem takeWhile_append_cons (p : Char → Bool) (xs : List Char) (y : Char)
    (ys : List Char) (hx : ∀ x ∈ xs, p x = true) (hy : p y = false) :
    List.takeWhile p (xs ++ y :: ys) = xs := by
  induction xs with
  | nil => simp [List.takeWhile_cons, hy]
  | cons x xs ih =>
    have hpx : p x = true := hx x (by simp)
    simp only [List.cons_append, List.takeWhile_cons, hpx, if_true]
    rw [ih (fun z hz => hx z (by simp [hz]))]

theorem dropWhile_append_cons (p : Char → Bool) (xs : List Char) (y : Char)
    (ys : List Char) (hx : ∀ x ∈ xs, p x = true) (hy : p y = false) :
    List.dropWhile p (xs ++ y :: ys) = y :: ys := by
  induction xs with
  | nil => simp [List.dropWhile_cons, hy]
  | cons x xs ih =>
    have hpx : p x = true := hx x (by simp)
    simp only [List.cons_append, List.dropWhile_cons, hpx, if_true]
    exact ih (fun z hz => hx z (by simp [hz]))

theorem toNat_digitChar10 (e : Nat) (he : e < 10) :
    (digitChar10 e).toNat = 48 + e := by
  unfold digitChar10
  exact toNat_ofNat_valid (Or.inl (by omega))

theorem isDigit10_digitChar10 (e : Nat) (he : e < 10) :
    isDigit10 (digitChar10 e) = true := by
  simp only [isDigit10, toNat_digitChar10 e he, Bool.and_eq_true,
    decide_eq_true_eq]
  omega

theorem isDigit10_natChars (n : Nat) : ∀ c ∈ natChars n, isDigit10 c = true := by
  intro c hc
  unfold natChars at hc
  by_cases h : n = 0
  · rw [if_pos h] at hc
    simp only [List.mem_singleton] at hc
    subst hc
    decide
  · rw [if_neg h] at hc
    obtain ⟨e, he, rfl⟩ := List.mem_map.mp hc
    exact isDigit10_digitChar10 e
      (Nat.digits_lt_base (by omega) (List.mem_reverse.mp he))

theorem natChars_ne_nil (n : Nat) : natChars n ≠ [] := by
  unfold natChars
  by_cases h : n = 0
  · simp [h]
  · rw [if_neg h]
    simp only [ne_eq, List.map_eq_nil_iff, List.reverse_eq_nil_iff]
    exact Nat.digits_ne_nil_iff_ne_zero.mpr h

theorem foldl_digitChars (L : List Nat) (hL : ∀ e ∈ L, e < 10) (a : Nat) :
    List.foldl (fun x c => x * 10 + (c.toNat - 48)) a ((L.reverse).map digitChar10)
      = a * 10 ^ L.length + Nat.ofDigits 10 L := by
  induction L generalizing a with
  | nil => simp [Nat.ofDigits]
  | cons e T ih =>
    rw [List.reverse_cons, List.map_append, List.foldl_append]
    rw [ih (fun x hx => hL x (by simp [hx])) a]
    simp only [List.map_cons, List.map_nil, List.foldl_cons, List.foldl_nil]
    rw [toNat_digitChar10 e (hL e (by simp)), Nat.ofDigits_cons,
      List.length_cons, pow_succ, Nat.add_sub_cancel_left]
    ring

theorem digitsVal_natChars (n : Nat) : digitsVal (natChars n) = n := by
  by_cases h : n = 0
  · subst h; rfl
  · unfold natChars digitsVal
    rw [if_neg h]
    rw [foldl_digitChars _ (fun e he => Nat.digits_lt_base (by omega) he) 0]
    simp [Nat.ofDigits_digits]

theorem parseNum_natChars (n : Nat) (y : Char) (ys : List Char)
    (hy : isDigit10 y = false) :
    parseNum (natChars n ++ y :: ys) = some (n, y :: ys) := by
  simp only [parseNum,
    takeWhile_append_cons _ _ _ _ (isDigit10_natChars n) hy,
    dropWhile_append_cons _ _ _ _ (isDigit10_natChars n) hy]
  rw [if_neg (by simpa [List.isEmpty_iff] using natChars_ne_nil n)]
  rw [digitsVal_natChars]

theorem parseInt_intChars (i : Int) (y : Char) (ys : List Char)
    (hy : isDigit10 y = false) :
    parseInt (intChars i ++ y :: ys) = some (i, y :: ys) := by
  by_cases h : i < 0
  · unfold intChars
    rw [if_pos h]
    simp only [List.cons_append, parseInt, if_pos (rfl : '-' = '-')]
    rw [parseNum_natChars _ _ _ hy]
    simp only [Option.map_some']
    have hi : -((i.natAbs : Nat) : Int) = i := by omega
    rw [hi]
    simp
  · unfold intChars
    rw [if_neg h]
    rcases hne : natChars i.natAbs with _ | ⟨c, cs⟩
    · exact absurd hne (natChars_ne_nil _)
    · have hc : isDigit10 c = true :=
        isDigit10_natChars _ c (by rw [hne]; exact List.mem_cons_self c cs)
      have hcm : ¬ c = '-' := by
        intro e
        subst e
        exact absurd hc (by decide)
      simp only [List.cons_append, parseInt, if_neg hcm]
      rw [← List.cons_append, ← hne]
      rw [parseNum_natChars _ _ _ hy]
      simp only [Option.map_some']
      have hi : ((i.natAbs : Nat) : Int) = i := by omega
      rw [hi]

theorem not_ws_of_digit (c : Char) (h : isDigit10 c = true) :
    isJsonWs c = false := by
  simp only [isDigit10, Bool.and_eq_true, decide_eq_true_eq] at h
  simp only [isJsonWs, Bool.or_eq_false_iff, decide_eq_false_iff_not]
  omega

theorem skipWs_cons_not_ws (c : Char) (h : isJsonWs c = false) (cs : List Char) :
    skipWs (c :: cs) = c :: cs := by
  unfold skipWs
  rw [List.dropWhile_cons, h]
  simp

theorem skipWs_space (cs : List Char) : skipWs (' ' :: cs) = skipWs cs := by
  unfold skipWs
  rw [List.dropWhile_cons, (by decide : isJsonWs ' ' = true)]
  simp

theorem skipWs_intChars (v : Int) (l : List Char) :
    skipWs (intChars v ++ l) = intChars v ++ l := by
  by_cases h : v < 0
  · unfold intChars
    rw [if_pos h, List.cons_append]
    exact skipWs_cons_not_ws _ (by decide) _
  · unfold intChars
    rw [if_neg h]
    rcases hne : natChars v.natAbs with _ | ⟨c, cs⟩
    · exact absurd hne (natChars_ne_nil _)
    · have hc : isDigit10 c = true :=
        isDigit10_natChars _ c (by rw [hne]; exact List.mem_cons_self c cs)
      rw [List.cons_append]
      exact skipWs_cons_not_ws _ (not_ws_of_digit c hc) _

theorem parsePair_pairChars (k : String) (v : Int) (y : Char) (ys : List Char)
    (hy : isDigit10 y = false) :
    parsePair (pairChars k v ++ y :: ys) = some ((k, v), y :: ys) := by
  have h1 : skipWs (pairChars k v ++ y :: ys)
      = quoteChars k ++ (':' :: ' ' :: (intChars v ++ y :: ys)) := by
    have he : pairChars k v ++ y :: ys
        = '"' :: (escapeChars k.data ++ '"' :: (':' :: ' ' :: (intChars v ++ y :: ys))) := by
      simp [pairChars, quoteChars]
    rw [he, skipWs_cons_not_ws _ (by decide) _]
    simp [quoteChars]
  have h3 : skipWs (' ' :: (intChars v ++ y :: ys)) = intChars v ++ y :: ys := by
    rw [skipWs_space, skipWs_intChars]
  simp only [parsePair, h1, parseJString_quoteChars,
    skipWs_cons_not_ws ':' (by decide), h3, parseInt_intChars _ _ _ hy]

theorem parsePair_space (cs : List Char) : parsePair (' ' :: cs) = parsePair cs := by
  simp only [parsePair, skipWs_space]

theorem parseMembers_space (fuel : Nat) (cs : List Char) :
    parseMembers fuel (' ' :: cs) = parseMembers fuel cs := by
  cases fuel with
  | zero => rfl
  | succ f => simp only [parseMembers, parsePair_space]

theorem parseMembers_membersChars :
    ∀ (d : Dict) (k : String) (v : Int) (fuel : Nat), d.length < fuel →
      ∀ rest : List Char,
        parseMembers fuel (membersChars ((k, v) :: d) ++ '}' :: rest)
          = some ((k, v) :: d, rest) := by
  intro d
  induction d with
  | nil =>
    intro k v fuel hf rest
    cases fuel with
    | zero => exact absurd hf (by omega)
    | succ f =>
      simp only [membersChars, parseMembers,
        parsePair_pairChars k v '}' rest (by decide),
        skipWs_cons_not_ws '}' (by decide)]
  | cons p d' ih =>
    intro k v fuel hf rest
    obtain ⟨k2, v2⟩ := p
    cases fuel with
    | zero => exact absurd hf (by omega)
    | succ f =>
      simp only [membersChars, List.cons_append, List.append_assoc, parseMembers,
        parsePair_pairChars k v ','
          (' ' :: (membersChars ((k2, v2) :: d') ++ '}' :: rest)) (by decide),
        skipWs_cons_not_ws ',' (by decide),
        parseMembers_space,
        ih k2 v2 f (by simpa using Nat.lt_of_succ_lt_succ hf) rest,
        Option.map_some']

theorem dictSet_absent_append (d : Dict) (k : String) (v : Int)
    (h : k ∉ dictKeys d) : dictSet d k v = d ++ [(k, v)] := by
  induction d with
  | nil => rfl
  | cons p rest ih =>
    obtain ⟨k', v'⟩ := p
    simp only [dictKeys, List.map_cons, List.mem_cons, not_or] at h
    simp only [dictSet, if_neg (show ¬ k' = k from fun e => h.1 e.symm),
      List.cons_append, List.cons.injEq, true_and]
    exact ih h.2

theorem foldl_dictSet_nodup :
    ∀ (ps : List (String × Int)) (acc : Dict), NodupKeys (acc ++ ps) →
      List.foldl (fun d p => dictSet d p.1 p.2) acc ps = acc ++ ps := by
  intro ps
  induction ps with
  | nil =>
    intro acc _
    simp
  | cons p ps ih =>
    intro acc h
    obtain ⟨k, v⟩ := p
    have hk : k ∉ dictKeys acc := by
      intro hmem
      have h' : ((acc.map Prod.fst) ++ (k :: ps.map Prod.fst)).Nodup := by
        simpa [NodupKeys, dictKeys] using h
      exact (List.nodup_append.mp h').2.2 hmem (List.mem_cons_self _ _)
    rw [List.foldl_cons]
    show List.foldl (fun d p => dictSet d p.1 p.2) (dictSet acc k v) ps = _
    rw [dictSet_absent_append acc k v hk]
    rw [ih (acc ++ [(k, v)])
      (by simpa only [List.append_assoc, List.singleton_append] using h)]
    simp

theorem pyDictOfPairs_self (d : Dict) (hnd : NodupKeys d) :
    pyDictOfPairs d = d := by
  have h := foldl_dictSet_nodup d [] (by simpa using hnd)
  simpa [pyDictOfPairs] using h

theorem one_le_pairChars_length (k : String) (v : Int) :
    1 ≤ (pairChars k v).length := by
  simp [pairChars, quoteChars]

theorem membersChars_length :
    ∀ (d : Dict) (k : String) (v : Int),
      d.length < (membersChars ((k, v) :: d)).length := by
  intro d
  induction d with
  | nil =>
    intro k v
    simpa [membersChars] using one_le_pairChars_length k v
  | cons p d' ih =>
    intro k v
    obtain ⟨k2, v2⟩ := p
    have h1 := ih k2 v2
    have h2 := one_le_pairChars_length k v
    simp only [membersChars, List.length_append, List.length_cons] at h1 ⊢
    omega

theorem membersChars_cons_head (d : Dict) (k : String) (v : Int) (l : List Char) :
    ∃ Z, membersChars ((k, v) :: d) ++ l = '"' :: Z := by
  cases d with
  | nil =>
    exact ⟨escapeChars k.data ++ '"' :: ':' :: ' ' :: (intChars v ++ l),
      by simp [membersChars, pairChars, quoteChars]⟩
  | cons p rest =>
    exact ⟨escapeChars k.data ++ '"' :: ':' :: ' ' ::
        (intChars v ++ ',' :: ' ' :: (membersChars (p :: rest) ++ l)),
      by simp [membersChars, pairChars, quoteChars]⟩

/-- The round-trip law: parsing back the serialized form of any mapping
with distinct keys reproduces it exactly. -/
theorem json_loads_json_dumps (d : Dict) (hnd : NodupKeys d) :
    json_loads (json_dumps d) = some d := by
  cases d with
  | nil => rfl
  | cons p tail =>
    obtain ⟨k, v⟩ := p
    have hdata : (json_dumps ((k, v) :: tail)).data
        = '{' :: (membersChars ((k, v) :: tail) ++ '}' :: []) := rfl
    obtain ⟨Z, hZ⟩ := membersChars_cons_head tail k v ('}' :: [])
    have hskip1 : skipWs ((json_dumps ((k, v) :: tail)).data)
        = '{' :: (membersChars ((k, v) :: tail) ++ '}' :: []) := by
      rw [hdata]
      exact skipWs_cons_not_ws '{' (by decide) _
    have hskip2 : skipWs (membersChars ((k, v) :: tail) ++ '}' :: []) = '"' :: Z := by
      rw [hZ]
      exact skipWs_cons_not_ws '"' (by decide) _
    have hfuel : tail.length
        < (membersChars ((k, v) :: tail) ++ '}' :: []).length + 1 := by
      have := membersChars_length tail k v
      simp only [List.length_append]
      omega
    have hmem := parseMembers_membersChars tail k v
      ((membersChars ((k, v) :: tail) ++ '}' :: []).length + 1) hfuel []
    unfold json_loads
    rw [hskip1]
    simp only [hskip2, hmem, (show skipWs ([] : List Char) = [] from rfl),
      List.isEmpty_nil, if_true, pyDictOfPairs_self _ hnd]
    rfl

/-!
### The claims
-/

/-- Claim C1, counterexample: the spec's concrete scenario
(`add("apple",10)`, `add("banana",-2)`, `remove("apple",3)`,
`remove("orange",1)` from an empty inventory) claims `"banana"` is absent so
that `quantity("banana")` fails with not-found; in fact `add_item` never
deletes an entry, so `"banana"` is still present and `get_qty` succeeds. -/
theorem C1_scenario_counterexample : ¬ get_qty c1_state "banana" = none := by
  decide

/-- Claim C1, amended: in the spec's concrete scenario,
`quantity("apple")` returns `7`, `"banana"` remains in the mapping with
quantity `-2` (the deletion rule is applied only by `remove`), and
`low_stock(5)` is exactly `["banana"]` — in particular it contains no item
whose quantity is `5` or more. -/
theorem C1_scenario_amended :
    get_qty c1_state "apple" = some 7 ∧
    get_qty c1_state "banana" = some (-2) ∧
    check_low_items c1_state 5 = ["banana"] := by
  refine ⟨?_, ?_, ?_⟩ <;> decide

/-- Claim C2: for an item present in the mapping with stored value `v` and
any integer `q`, `remove_item` decrements to `v - q` and then deletes the
entry exactly when `v - q ≤ 0` (so a subsequent `get_qty` fails with
not-found); when `v - q > 0` the entry remains with that value. -/
theorem C2_remove_present (d : Dict) (item : String) (q v : Int)
    (hnd : NodupKeys d) (h : dictGet d item = some v) :
    (v - q ≤ 0 → get_qty (remove_item d item q) item = none) ∧
    (0 < v - q → get_qty (remove_item d item q) item = some (v - q)) := by
  simp only [get_qty, remove_item, h]
  constructor
  · intro hle
    simp only [if_pos hle]
    exact dictGet_dictDel_self _ _ (nodupKeys_dictSet d item (v - q) hnd)
  · intro hgt
    rw [if_neg (by omega : ¬ v - q ≤ 0)]
    exact dictGet_dictSet_self d item (v - q)

theorem C2_witness :
    NodupKeys [("apple", (7 : Int))] ∧
    dictGet [("apple", (7 : Int))] "apple" = some 7 ∧
    (((7 : Int) - 3 ≤ 0 →
        get_qty (remove_item [("apple", (7 : Int))] "apple" 3) "apple" = none) ∧
     (0 < (7 : Int) - 3 →
        get_qty (remove_item [("apple", (7 : Int))] "apple" 3) "apple" = some (7 - 3))) :=
  ⟨by decide, by decide, C2_remove_present _ "apple" 3 7 (by decide) (by decide)⟩

/-- Claim C3: `remove_item` on an item absent from the mapping is a no-op —
the `KeyError` is swallowed and the whole mapping is returned unchanged. -/
theorem C3_remove_absent_noop (d : Dict) (item : String) (q : Int)
    (h : dictGet d item = none) : remove_item d item q = d := by
  simp only [remove_item, h]

theorem C3_witness :
    dictGet [("apple", (3 : Int))] "pear" = none ∧
    remove_item [("apple", (3 : Int))] "pear" 2 = [("apple", (3 : Int))] :=
  ⟨by decide, C3_remove_absent_noop _ "pear" 2 (by decide)⟩

/-- Claim C4: `get_qty` returns the stored quantity of a present item, and
fails with the uncaught `KeyError` (here `none`, with no default fallback)
for an absent item — in particular for every item never added. -/
theorem C4_get_qty_spec (d : Dict) (item : String) (hnd : NodupKeys d) :
    (∀ v : Int, (item, v) ∈ d → get_qty d item = some v) ∧
    ((∀ v : Int, (item, v) ∉ d) → get_qty d item = none) := by
  unfold get_qty
  constructor
  · intro v hm
    exact dictGet_eq_some_of_mem d item v hnd hm
  · intro habs
    rw [dictGet_eq_none_iff]
    intro hk
    obtain ⟨v, hv⟩ := exists_mem_of_mem_keys d item hk
    exact habs v hv

theorem C4_witness :
    NodupKeys [("apple", (3 : Int))] ∧
    ((∀ v : Int, ("apple", v) ∈ [("apple", (3 : Int))] →
        get_qty [("apple", (3 : Int))] "apple" = some v) ∧
     ((∀ v : Int, ("apple", v) ∉ [("apple", (3 : Int))]) →
        get_qty [("apple", (3 : Int))] "apple" = none)) :=
  ⟨by decide, C4_get_qty_spec [("apple", (3 : Int))] "apple" (by decide)⟩

/-- Claim C5: for a non-falsy item, each `add_item` sets the stored value to
its previous value (`0` if absent, creating the entry) plus the given
quantity; hence `add(item, q1); add(item, q2)` on a previously absent item
yields `quantity(item) == q1 + q2`. -/
theorem C5_add_accumulates (d : Dict) (item : String) (q1 q2 : Int)
    (l1 l2 l3 : List String) (h : item ≠ "") :
    (dictGet d item = none →
      get_qty (add_item (add_item d item q1 l1).1 item q2 l2).1 item
        = some (q1 + q2)) ∧
    get_qty (add_item d item q1 l3).1 item = some (dictGetD d item 0 + q1) := by
  have hset : ∀ (dd : Dict) (q : Int) (l : List String),
      (add_item dd item q l).1 = dictSet dd item (dictGetD dd item 0 + q) := by
    intro dd q l
    simp [add_item, h]
  constructor
  · intro habs
    rw [hset, hset]
    unfold get_qty
    rw [dictGet_dictSet_self]
    have h1 : dictGetD (dictSet d item (dictGetD d item 0 + q1)) item 0
        = dictGetD d item 0 + q1 := by
      unfold dictGetD
      rw [dictGet_dictSet_self]
      rfl
    rw [h1]
    unfold dictGetD
    rw [habs]
    simp only [Option.getD_none, Option.some.injEq]
    ring
  · rw [hset]
    unfold get_qty
    exact dictGet_dictSet_self ..

theorem C5_witness :
    "x" ≠ "" ∧ dictGet [] "x" = none ∧
    get_qty (add_item (add_item [] "x" 2 []).1 "x" 3 []).1 "x" = some (2 + 3) :=
  ⟨by decide, by decide,
   (C5_add_accumulates [] "x" 2 3 [] [] [] (by decide)).1 (by decide)⟩

/-- Claim C7: `check_low_items` returns exactly the items whose stored
quantity is strictly below the threshold — sound and complete — and its
result is a sublist of the keys in mapping iteration order.  (The embedding
is pure, so the mapping itself is returned unmodified by construction.) -/
theorem C7_check_low_items_spec (d : Dict) (t : Int) (hnd : NodupKeys d) :
    (∀ item : String,
      item ∈ check_low_items d t ↔ ∃ v, get_qty d item = some v ∧ v < t) ∧
    (check_low_items d t).Sublist (dictKeys d) := by
  refine ⟨fun item => ?_, check_low_sublist_keys d t⟩
  unfold get_qty
  rw [mem_check_low_iff]
  constructor
  · rintro ⟨v, hv, ht⟩
    exact ⟨v, dictGet_eq_some_of_mem d item v hnd hv, ht⟩
  · rintro ⟨v, hv, ht⟩
    exact ⟨v, mem_of_dictGet_eq_some d item v hv, ht⟩

theorem C7_witness :
    NodupKeys [("apple", (2 : Int)), ("banana", 10)] ∧
    ((∀ item : String,
        item ∈ check_low_items [("apple", (2 : Int)), ("banana", 10)] 5 ↔
          ∃ v, get_qty [("apple", (2 : Int)), ("banana", 10)] item = some v ∧ v < 5) ∧
     (check_low_items [("apple", (2 : Int)), ("banana", 10)] 5).Sublist
        (dictKeys [("apple", (2 : Int)), ("banana", 10)])) :=
  ⟨by decide, C7_check_low_items_spec [("apple", (2 : Int)), ("banana", 10)] 5 (by decide)⟩

/-- Claim C8: `add_item` with the falsy (empty-string) item identifier is a
no-op: `if not item: return` fires, the mapping is unchanged and nothing is
appended to the supplied log list. -/
theorem C8_add_falsy_noop (d : Dict) (q : Int) (logs : List String) :
    add_item d "" q logs = (d, logs) := by
  simp [add_item]

/-- Claim C10: `add_item` never deletes an entry — after `add_item` on a
non-falsy item, the item is present (with value previous-plus-`qty`) even
when that value is zero or negative, and `get_qty` succeeds on it. -/
theorem C10_add_never_deletes (d : Dict) (item : String) (q : Int)
    (logs : List String) (h : item ≠ "") :
    get_qty (add_item d item q logs).1 item = some (dictGetD d item 0 + q) ∧
    (dictGetD d item 0 + q ≤ 0 →
      ∃ v, get_qty (add_item d item q logs).1 item = some v ∧ v ≤ 0) := by
  have hset : (add_item d item q logs).1
      = dictSet d item (dictGetD d item 0 + q) := by
    simp [add_item, h]
  have hget : get_qty (add_item d item q logs).1 item
      = some (dictGetD d item 0 + q) := by
    rw [hset]
    unfold get_qty
    exact dictGet_dictSet_self ..
  exact ⟨hget, fun hle => ⟨_, hget, hle⟩⟩

theorem C10_witness :
    "banana" ≠ "" ∧
    (get_qty (add_item [] "banana" (-2) []).1 "banana"
        = some (dictGetD [] "banana" 0 + (-2)) ∧
     (dictGetD [] "banana" 0 + (-2) ≤ 0 →
        ∃ v, get_qty (add_item [] "banana" (-2) []).1 "banana" = some v ∧ v ≤ 0)) :=
  ⟨by decide, C10_add_never_deletes [] "banana" (-2) [] (by decide)⟩

/-- Claim C6: for every mapping (the keys a Python dict can hold are
distinct), `save_data` to a path followed by `load_data` from the same path
succeeds and reproduces a mapping equal to the one saved, including the
empty mapping — the serialization round-trip law, proved through the
character-exact `json.dumps`/`json.loads` model. -/
theorem C6_save_load_roundtrip (fs : FS) (d : Dict) (path : String) (m : Dict)
    (hnd : NodupKeys d) :
    load_data (save_data fs d path) m path = (d, true) := by
  have hfs : save_data fs d path path = some (json_dumps d) := if_pos rfl
  simp only [load_data, hfs, json_loads_json_dumps d hnd]

theorem C6_witness :
    (NodupKeys ([] : Dict) ∧
      load_data (save_data (fun _ => none) [] "inventory.json") [("z", (9 : Int))]
        "inventory.json" = ([], true)) ∧
    (NodupKeys [("apple", (10 : Int)), ("b\n", -2)] ∧
      load_data (save_data (fun _ => none) [("apple", (10 : Int)), ("b\n", -2)]
          "inventory.json") [("z", (9 : Int))] "inventory.json"
        = ([("apple", (10 : Int)), ("b\n", -2)], true)) :=
  ⟨⟨by decide, C6_save_load_roundtrip (fun _ => none) [] "inventory.json"
      [("z", (9 : Int))] (by decide)⟩,
   ⟨by decide, C6_save_load_roundtrip (fun _ => none)
      [("apple", (10 : Int)), ("b\n", -2)] "inventory.json"
      [("z", (9 : Int))] (by decide)⟩⟩

/-- Claim C9: `load_data` fails (error surfaced, in-memory mapping left
intact, no partial or fallback state) whenever the path is unreadable or
the contents do not parse as a JSON object; on success it replaces the
whole mapping with the parsed object, discarding all previous entries. -/
theorem C9_load_spec (fs : FS) (m : Dict) (path : String) :
    (fs path = none → load_data fs m path = (m, false)) ∧
    (∀ s, fs path = some s → json_loads s = none →
      load_data fs m path = (m, false)) ∧
    (∀ s obj, fs path = some s → json_loads s = some obj →
      load_data fs m path = (obj, true)) := by
  refine ⟨fun h => ?_, fun s hs hp => ?_, fun s obj hs hp => ?_⟩
  · simp only [load_data, h]
  · simp only [load_data, hs, hp]
  · simp only [load_data, hs, hp]

theorem C9_witness :
    (c9_fs "missing" = none ∧
      load_data c9_fs [("z", (5 : Int))] "missing" = ([("z", (5 : Int))], false)) ∧
    (c9_fs "bad" = some "not a json object" ∧
      json_loads "not a json object" = none ∧
      load_data c9_fs [("z", (5 : Int))] "bad" = ([("z", (5 : Int))], false)) ∧
    (c9_fs "good" = some "\x7b\"a\": 1\x7d" ∧
      json_loads "\x7b\"a\": 1\x7d" = some [("a", 1)] ∧
      load_data c9_fs [("z", (5 : Int))] "good" = ([("a", (1 : Int))], true)) :=
  ⟨⟨rfl, (C9_load_spec c9_fs [("z", (5 : Int))] "missing").1 rfl⟩,
   ⟨rfl, rfl,
    (C9_load_spec c9_fs [("z", (5 : Int))] "bad").2.1 "not a json object" rfl rfl⟩,
   ⟨rfl, rfl,
    (C9_load_spec c9_fs [("z", (5 : Int))] "good").2.2 "\x7b\"a\": 1\x7d"
      [("a", (1 : Int))] rfl rfl⟩⟩
